import Mathlib

/-!
Verification of the NMFF-AFM search-and-convergence engine (TamaLab/nmff-afm).

This file shallowly embeds the numerical and control logic of the repository:
the per-iteration mode/amplitude sampling (`module/modes_generator.py`), the
slope ranking and Pearson similarity (`module/slope_of_gradient.py`), the
termination judgements over the trajectory log (`module/stop_iter.py`), the
post-run decay analysis (`module/scoring_and_export.py`), and the top-level
iteration loop of `nmff_afm.py`.  Machine floats of the source are modelled
as `ℚ` where only ordering/arithmetic matters and as `ℝ` where logarithms and
square roots occur; Python exceptions are modelled with `Option` (a `none`
result stands for an uncaught exception aborting the computation).
-/

namespace Nmff

/-! ### Iteration loop with the `numeric` termination criterion
(`nmff_afm.py`, `for i in range(num_iterations + 10)` with the
`termination_criterion == "numeric"` branch).

The loop state is the `deformed_times` counter (which starts at 0 and is
incremented exactly once per non-stopping pass, so it coincides with the
`range` index) and the trajectory log.  `cc_judgement_avrg` appends the
iteration's record to the log in both the stopping and the continuing branch,
before `stop_bool` is consulted.  The amplitude selected at each iteration is
abstracted as a function `amp` of the iteration index; a record is modelled
by the pair (iteration index, selected amplitude).  The fuel argument models
the `range (num_iterations + 10)` bound. -/

def numericLoop (budget : ℕ) (amp : ℕ → ℤ) :
    ℕ → ℕ → List (ℕ × ℤ) → ℕ × List (ℕ × ℤ)
  | 0, d, log => (d, log)
  | fuel + 1, d, log =>
    -- cc_judgement_avrg writes the record in both branches of the numeric test
    let log2 := log ++ [(d, amp d)]
    if d = budget ∨ amp d = 0 then (d, log2)
    else numericLoop budget amp fuel (d + 1) log2

/-- The whole `numeric` run: `deformed_times = 0`, empty log, loop bound
`num_iterations + 10` as in `nmff_afm.py`. Returns the value of
`deformed_times` at loop exit together with the trajectory log. -/
def numericRun (budget : ℕ) (amp : ℕ → ℤ) : ℕ × List (ℕ × ℤ) :=
  numericLoop budget amp (budget + 10) 0 []

lemma numericLoop_spec (budget : ℕ) (amp : ℕ → ℤ) :
    ∀ (fuel d : ℕ) (acc : List (ℕ × ℤ)), d ≤ budget → budget + 1 ≤ d + fuel →
      ((numericLoop budget amp fuel d acc).1 = budget ∨
        amp (numericLoop budget amp fuel d acc).1 = 0) ∧
      (∀ j, d ≤ j → j < (numericLoop budget amp fuel d acc).1 →
        j ≠ budget ∧ amp j ≠ 0) ∧
      d ≤ (numericLoop budget amp fuel d acc).1 ∧
      (numericLoop budget amp fuel d acc).2 =
        acc ++ (List.range' d ((numericLoop budget amp fuel d acc).1 + 1 - d)).map
          (fun j => (j, amp j)) := by
  intro fuel
  induction fuel with
  | zero => intro d acc hd hfuel; omega
  | succ n ih =>
    intro d acc hd hfuel
    by_cases h : d = budget ∨ amp d = 0
    · have hres : numericLoop budget amp (n + 1) d acc = (d, acc ++ [(d, amp d)]) := by
        simp only [numericLoop, if_pos h]
      rw [hres]
      refine ⟨h, ?_, le_refl d, ?_⟩
      · intro j hj1 hj2; omega
      · simp
    · have hres : numericLoop budget amp (n + 1) d acc =
          numericLoop budget amp n (d + 1) (acc ++ [(d, amp d)]) := by
        simp only [numericLoop, if_neg h]
      push_neg at h
      have hd1 : d + 1 ≤ budget := by omega
      have hf1 : budget + 1 ≤ (d + 1) + n := by omega
      obtain ⟨h1, h2, h3, h4⟩ := ih (d + 1) (acc ++ [(d, amp d)]) hd1 hf1
      rw [hres]
      refine ⟨h1, ?_, by omega, ?_⟩
      · intro j hj1 hj2
        rcases Nat.eq_or_lt_of_le hj1 with heq | hlt
        · exact heq ▸ h
        · exact h2 j hlt hj2
      · rw [h4, List.append_assoc]
        congr 1
        have hn : (numericLoop budget amp n (d + 1) (acc ++ [(d, amp d)])).1 + 1 - d =
            ((numericLoop budget amp n (d + 1) (acc ++ [(d, amp d)])).1 + 1 - (d + 1)) + 1 := by
          omega
        rw [hn, List.range'_succ]
        simp

/-- Claim C1: with the `numeric` termination criterion, the loop of
`nmff_afm.py` stops exactly at the first iteration whose `deformed_times`
counter equals the configured iteration budget or whose selected amplitude is
0 (whichever comes first: every earlier iteration satisfies neither
condition), and the trajectory log at exit contains the records of all
iterations up to and including the stopping one. -/
theorem numeric_run_stops_at_first_trigger (budget : ℕ) (amp : ℕ → ℤ) :
    ((numericRun budget amp).1 = budget ∨ amp (numericRun budget amp).1 = 0) ∧
    (∀ j < (numericRun budget amp).1, j ≠ budget ∧ amp j ≠ 0) ∧
    (numericRun budget amp).2 =
      (List.range ((numericRun budget amp).1 + 1)).map (fun j => (j, amp j)) := by
  obtain ⟨h1, h2, _h3, h4⟩ :=
    numericLoop_spec budget amp (budget + 10) 0 [] (Nat.zero_le budget) (by omega)
  refine ⟨h1, fun j hj => h2 j (Nat.zero_le j) hj, ?_⟩
  rw [show numericRun budget amp = numericLoop budget amp (budget + 10) 0 [] from rfl] at *
  rw [h4, List.range_eq_range']
  simp

/-! ### Amplitude sampling per mode
(`module/modes_generator.py`, `generate_deformed_conformation`):
for each mode in the inclusive range the deformed conformations are produced
at the five amplitudes `(-amplitude, -one_half, 0, one_half, amplitude)` with
`one_half = int(amplitude / 2)`; the function asserts `amplitude > 0`. -/

/-- Python `int(...)` on a rational value: truncation toward zero. -/
def pyInt (q : ℚ) : ℤ := if 0 ≤ q then ⌊q⌋ else -⌊-q⌋

/-- The five-amplitude tuple `(-amplitude, -one_half, 0, one_half, amplitude)`
from `generate_deformed_conformation`. -/
def dqTuple (amplitude : ℚ) : List ℚ :=
  [-amplitude, -(pyInt (amplitude / 2) : ℚ), 0, (pyInt (amplitude / 2) : ℚ), amplitude]

/-- The inclusive mode range `range(start_mode, end_mode + 1, 1)`. -/
def modesList (start_mode end_mode : ℤ) : List ℤ :=
  (List.range (end_mode - start_mode + 1).toNat).map (fun k => start_mode + Int.ofNat k)

/-- `generate_deformed_conformation`: one deformed conformation (mode, dq)
per mode of the range and per amplitude of the five-value tuple. -/
def generate_deformed_conformation (start_mode end_mode : ℤ) (amplitude : ℚ) :
    List (ℤ × ℚ) :=
  (modesList start_mode end_mode).flatMap (fun f => (dqTuple amplitude).map (fun dq => (f, dq)))

/-- The amplitudes at which a given mode is sampled. -/
def dqValuesOfMode (samples : List (ℤ × ℚ)) (m : ℤ) : List ℚ :=
  (samples.filter (fun p => p.1 = m)).map Prod.snd

lemma modesList_nodup (s e : ℤ) : (modesList s e).Nodup := by
  unfold modesList
  refine (List.nodup_range _).map ?_
  intro a b h
  have h2 : s + Int.ofNat a = s + Int.ofNat b := h
  exact Int.ofNat.inj (add_left_cancel h2)

lemma filter_flatMap_mode (modes : List ℤ) (dqs : List ℚ) (m : ℤ)
    (hnd : modes.Nodup) (hm : m ∈ modes) :
    ((modes.flatMap (fun f => dqs.map (fun dq => (f, dq)))).filter
      (fun p => p.1 = m)).map Prod.snd = dqs := by
  induction modes with
  | nil => cases hm
  | cons f rest ih =>
    rw [List.flatMap_cons, List.filter_append, List.map_append]
    rcases List.mem_cons.mp hm with heq | hmem
    · subst heq
      have hrest : ((rest.flatMap (fun f => dqs.map (fun dq => (f, dq)))).filter
          (fun p => p.1 = m)) = [] := by
        rw [List.filter_eq_nil_iff]
        intro a ha
        obtain ⟨f', hf', ha'⟩ := List.mem_flatMap.mp ha
        obtain ⟨dq, _, hdq⟩ := List.mem_map.mp ha'
        have : f' ≠ m := by
          intro hc; subst hc
          exact (List.nodup_cons.mp hnd).1 hf'
        simp [← hdq, this]
      rw [hrest]
      have hall : (dqs.map (fun dq => (m, dq))).filter (fun p => p.1 = m) =
          dqs.map (fun dq => (m, dq)) := by
        rw [List.filter_eq_self]
        intro a ha
        obtain ⟨dq, _, hdq⟩ := List.mem_map.mp ha
        simp [← hdq]
      rw [hall]
      simp [List.map_map]
    · have hf : f ≠ m := by
        intro hc; subst hc
        exact (List.nodup_cons.mp hnd).1 hmem
      have hblock : (dqs.map (fun dq => (f, dq))).filter (fun p => p.1 = m) = [] := by
        rw [List.filter_eq_nil_iff]
        intro a ha
        obtain ⟨dq, _, hdq⟩ := List.mem_map.mp ha
        simp [← hdq, hf]
      rw [hblock]
      simpa using ih (List.nodup_cons.mp hnd).2 hmem

/-- Claim C6: for a configured combined amplitude `A > 0` (the function
asserts positivity), every mode of the configured range is sampled at
exactly the amplitudes `-A, -int(A/2), 0, int(A/2), A` (integer truncation
of `A/2`); as a set these are `{-A, -int(A/2), 0, int(A/2), A}`, and for
`A = 10` the sampled amplitudes are exactly `{-10, -5, 0, 5, 10}`. -/
theorem amplitude_sampling_per_mode (A : ℚ) (hA : 0 < A) (s e m : ℤ)
    (hm : m ∈ modesList s e) :
    dqValuesOfMode (generate_deformed_conformation s e A) m = dqTuple A ∧
    (dqTuple A).toFinset =
      ({-A, -(pyInt (A / 2) : ℚ), 0, (pyInt (A / 2) : ℚ), A} : Finset ℚ) ∧
    (dqTuple 10).toFinset = ({-10, -5, 0, 5, 10} : Finset ℚ) := by
  have _hA := hA
  refine ⟨?_, ?_, ?_⟩
  · exact filter_flatMap_mode (modesList s e) (dqTuple A) m (modesList_nodup s e) hm
  · simp [dqTuple, List.toFinset_cons]
  · have hhalf : pyInt ((10 : ℚ) / 2) = 5 := by norm_num [pyInt]
    simp [dqTuple, hhalf, List.toFinset_cons]

/-- Witness for C6 at `A = 10` and mode range `[7, 9]`, mode 8. -/
theorem amplitude_sampling_per_mode_witness :
    ((0 : ℚ) < 10 ∧ (8 : ℤ) ∈ modesList 7 9) ∧
    (dqValuesOfMode (generate_deformed_conformation 7 9 10) 8 = dqTuple 10 ∧
      (dqTuple 10).toFinset =
        ({-10, -(pyInt ((10 : ℚ) / 2) : ℚ), 0, (pyInt ((10 : ℚ) / 2) : ℚ), 10} : Finset ℚ) ∧
      (dqTuple 10).toFinset = ({-10, -5, 0, 5, 10} : Finset ℚ)) :=
  ⟨⟨by norm_num, by decide⟩,
    amplitude_sampling_per_mode 10 (by norm_num) 7 9 8 (by decide)⟩

/-! ### Slope ranking and mode selection
(`module/slope_of_gradient.py`, `find_largest_slopes`, and the
`mode_selection` branches of `nmff_afm.py`).

`find_largest_slopes` runs `df.sort_values(by=['abs_slope'], ascending=False)`
and reads rows `iloc[0]` and `iloc[1]`.  pandas computes a descending sort in
`nargsort` by reversing the values and the index array BEFORE the ascending
argsort and reversing the resulting indexer AFTER; with a stable underlying
sort (numpy's argsort is a stable insertion sort at the sizes produced by
partitioning) this double reversal makes the descending order stable in the
ORIGINAL encounter order: among ties the first-encountered row comes first.
This is modelled exactly: reverse the rows, stable ascending insertion sort
by `abs(slope)`, reverse the result.  A slope-table row is the pair
(mode, slope); reading `iloc[1]` of a one-row table raises `IndexError`,
modelled by `none`. -/

/-- Stable ascending insertion by absolute slope: the new row goes after all
rows whose key is ≤ its own, as in numpy's insertion sort. -/
def insertAsc (x : ℤ × ℚ) : List (ℤ × ℚ) → List (ℤ × ℚ)
  | [] => [x]
  | y :: ys => if |x.2| < |y.2| then x :: y :: ys else y :: insertAsc x ys

/-- Stable ascending sort of the slope table by `abs_slope`. -/
def argsortAsc (rows : List (ℤ × ℚ)) : List (ℤ × ℚ) :=
  rows.foldl (fun acc x => insertAsc x acc) []

/-- `df.sort_values(by=['abs_slope'], ascending=False)`: `nargsort` reverses
the rows, argsorts them ascending with a stable sort, and reverses the
indexer again — a stable descending sort. -/
def pandas_sort_desc (rows : List (ℤ × ℚ)) : List (ℤ × ℚ) :=
  (argsortAsc rows.reverse).reverse

/-- `find_largest_slopes`: the (mode, slope) of `iloc[0]` and `iloc[1]` of the
descending-sorted table; `none` models the `IndexError` when the table has
fewer than two rows. -/
def find_largest_slopes (rows : List (ℤ × ℚ)) : Option (ℤ × ℚ × ℤ × ℚ) :=
  match pandas_sort_desc rows with
  | r1 :: r2 :: _ => some (r1.1, r1.2, r2.1, r2.2)
  | _ => none

/-- The `mode_selection == "slope"` branch of `nmff_afm.py`:
`deform_amplitude_1 = first_slope / abs(first_slope) * combined_amplitude`.
`none` models the `IndexError` inside `find_largest_slopes` or the
`ZeroDivisionError` when the largest slope is 0. -/
def slope_move (rows : List (ℤ × ℚ)) (A : ℚ) : Option (ℤ × ℚ) :=
  match find_largest_slopes rows with
  | none => none
  | some (m, s, _, _) => if s = 0 then none else some (m, s / |s| * A)

/-- The last row of maximal absolute slope under a left fold that prefers the
newer row on ties.  The head of `pandas_sort_desc rows` is
`lastArgmaxAbs rows.reverse`, i.e. the FIRST-encountered row of maximal
absolute slope of `rows`. -/
def lastArgmaxAbs (rows : List (ℤ × ℚ)) : Option (ℤ × ℚ) :=
  rows.foldl
    (fun acc x =>
      match acc with
      | none => some x
      | some y => if |y.2| ≤ |x.2| then some x else some y)
    none

/-- The first-encountered row of maximal absolute slope (spec-side
characterisation of the head of the stable descending sort; the theorem on
the slope strategy proves it is that row). -/
def firstArgmaxAbs (rows : List (ℤ × ℚ)) : Option (ℤ × ℚ) :=
  lastArgmaxAbs rows.reverse

/-- The per-mode slope table built by `process_data_tsv`
(`for i in range(start_mode, end_mode + 1)` with one regression row per mode). -/
def mkSlopesTable (start_mode end_mode : ℤ) (slopeOf : ℤ → ℚ) : List (ℤ × ℚ) :=
  (modesList start_mode end_mode).map (fun m => (m, slopeOf m))

/-- The configured `mode_selection` strategy string. -/
inductive ModeSelection
  | slope
  | maxcc
  | maxcc_force_move
  | invalid (s : String)

/-- The selection block of `nmff_afm.py` (lines 170-193): `find_largest_slopes`
is called unconditionally before the strategy branches; a `maxcc` row of the
similarity table is (mode, dq, cc), the table arriving sorted descending by
cc.  `none` models an uncaught exception (`IndexError`, `ZeroDivisionError`
or the `ValueError` of an unknown strategy). -/
def select_move (strat : ModeSelection) (slopes : List (ℤ × ℚ))
    (pcc : List (ℤ × ℚ × ℚ)) (A : ℚ) : Option (ℤ × ℚ) :=
  match find_largest_slopes slopes with
  | none => none
  | some (m, s, _, _) =>
    match strat with
    | .slope => if s = 0 then none else some (m, s / |s| * A)
    | .maxcc =>
      match pcc with
      | [] => none
      | p :: _ => some (p.1, p.2.1)
    | .maxcc_force_move =>
      match pcc.filter (fun p => decide (p.2.1 ≠ 0)) with
      | [] => none
      | p :: _ => some (p.1, p.2.1)
    | .invalid _ => none

/-- The ascending-by-absolute-slope ordering invariant. -/
def SortedKey (l : List (ℤ × ℚ)) : Prop :=
  l.Pairwise (fun a b => |a.2| ≤ |b.2|)

lemma mem_insertAsc {x a : ℤ × ℚ} : ∀ {l : List (ℤ × ℚ)},
    a ∈ insertAsc x l ↔ a = x ∨ a ∈ l
  | [] => by simp [insertAsc]
  | y :: ys => by
    rw [insertAsc]
    by_cases hc : |x.2| < |y.2|
    · rw [if_pos hc]
      exact List.mem_cons
    · rw [if_neg hc]
      rw [List.mem_cons, List.mem_cons, mem_insertAsc (l := ys)]
      tauto

lemma insertAsc_sortedKey (x : ℤ × ℚ) : ∀ {l : List (ℤ × ℚ)},
    SortedKey l → SortedKey (insertAsc x l)
  | [] => fun _ => by simp [insertAsc, SortedKey]
  | y :: ys => fun h => by
    obtain ⟨hy, hys⟩ := List.pairwise_cons.mp h
    rw [insertAsc]
    by_cases hc : |x.2| < |y.2|
    · rw [if_pos hc]
      refine List.pairwise_cons.mpr ⟨?_, h⟩
      intro b hb
      rcases List.mem_cons.mp hb with hb | hb
      · exact hb ▸ hc.le
      · exact hc.le.trans (hy b hb)
    · rw [if_neg hc]
      refine List.pairwise_cons.mpr ⟨?_, insertAsc_sortedKey x hys⟩
      intro b hb
      rcases mem_insertAsc.mp hb with hb | hb
      · exact hb ▸ (not_lt.mp hc)
      · exact hy b hb

lemma insertAsc_ne_nil (x : ℤ × ℚ) (l : List (ℤ × ℚ)) : insertAsc x l ≠ [] := by
  cases l with
  | nil => simp [insertAsc]
  | cons y ys =>
    rw [insertAsc]
    split <;> simp

lemma length_insertAsc (x : ℤ × ℚ) : ∀ (l : List (ℤ × ℚ)),
    (insertAsc x l).length = l.length + 1
  | [] => rfl
  | y :: ys => by
    rw [insertAsc]
    split
    · rfl
    · simp [length_insertAsc x ys]

lemma argsortAsc_sortedKey_aux : ∀ (rows acc : List (ℤ × ℚ)), SortedKey acc →
    SortedKey (rows.foldl (fun acc x => insertAsc x acc) acc)
  | [], _, h => h
  | x :: xs, acc, h =>
    argsortAsc_sortedKey_aux xs (insertAsc x acc) (insertAsc_sortedKey x h)

lemma argsortAsc_sortedKey (rows : List (ℤ × ℚ)) : SortedKey (argsortAsc rows) :=
  argsortAsc_sortedKey_aux rows [] (by simp [SortedKey])

lemma argsortAsc_length_aux : ∀ (rows acc : List (ℤ × ℚ)),
    (rows.foldl (fun acc x => insertAsc x acc) acc).length = acc.length + rows.length
  | [], _ => rfl
  | x :: xs, acc => by
    rw [List.foldl_cons, argsortAsc_length_aux xs (insertAsc x acc), length_insertAsc,
      List.length_cons]
    omega

lemma argsortAsc_length (rows : List (ℤ × ℚ)) :
    (argsortAsc rows).length = rows.length := by
  rw [argsortAsc, argsortAsc_length_aux]
  simp

lemma getLast?_insertAsc (x : ℤ × ℚ) : ∀ (l : List (ℤ × ℚ)), SortedKey l →
    (insertAsc x l).getLast? = some
      (match l.getLast? with
       | none => x
       | some y => if |y.2| ≤ |x.2| then x else y)
  | [], _ => by simp [insertAsc]
  | y :: ys, h => by
    obtain ⟨hy, hys⟩ := List.pairwise_cons.mp h
    rw [insertAsc]
    by_cases hc : |x.2| < |y.2|
    · rw [if_pos hc, List.getLast?_cons_cons]
      have hz : ∃ z, (y :: ys).getLast? = some z := by
        cases hzz : (y :: ys).getLast? with
        | none => simp at hzz
        | some z => exact ⟨z, rfl⟩
      obtain ⟨z, hz⟩ := hz
      have hzmem : z ∈ y :: ys := List.mem_of_mem_getLast? hz
      have hyz : |y.2| ≤ |z.2| := by
        rcases List.mem_cons.mp hzmem with hb | hb
        · exact hb ▸ le_refl _
        · exact hy z hb
      have hxz : ¬ (|z.2| ≤ |x.2|) := not_le.mpr (lt_of_lt_of_le hc hyz)
      rw [hz]
      show some z = some (if |z.2| ≤ |x.2| then x else z)
      rw [if_neg hxz]
    · rw [if_neg hc]
      obtain ⟨c, cs, hccs⟩ := List.exists_cons_of_ne_nil (insertAsc_ne_nil x ys)
      rw [hccs, List.getLast?_cons_cons, ← hccs, getLast?_insertAsc x ys hys]
      cases ys with
      | nil => simp [not_lt.mp hc]
      | cons w ws => rw [List.getLast?_cons_cons]

lemma head_reverse_argsortAsc (rows : List (ℤ × ℚ)) :
    ((argsortAsc rows).reverse).head? = lastArgmaxAbs rows := by
  induction rows using List.reverseRecOn with
  | nil => rfl
  | append_singleton rs x ih =>
    have h1 : argsortAsc (rs ++ [x]) = insertAsc x (argsortAsc rs) := by
      simp [argsortAsc, List.foldl_append]
    have h2 : (argsortAsc rs).getLast? = lastArgmaxAbs rs := by
      rw [← List.head?_reverse, ih]
    have h3 : lastArgmaxAbs (rs ++ [x]) =
        match lastArgmaxAbs rs with
        | none => some x
        | some y => if |y.2| ≤ |x.2| then some x else some y := by
      simp [lastArgmaxAbs, List.foldl_append]
    rw [h1, List.head?_reverse,
      getLast?_insertAsc x _ (argsortAsc_sortedKey rs), h2, h3]
    cases lastArgmaxAbs rs with
    | none => rfl
    | some y =>
      simp only []
      split <;> rfl

lemma head_pandas_sort_desc (rows : List (ℤ × ℚ)) :
    (pandas_sort_desc rows).head? = firstArgmaxAbs rows := by
  rw [pandas_sort_desc, firstArgmaxAbs]
  exact head_reverse_argsortAsc rows.reverse

lemma lastArgmaxAbs_of_cons (r : ℤ × ℚ) : ∀ (rest : List (ℤ × ℚ)) (p : ℤ × ℚ),
    ∃ q, (rest.foldl
      (fun acc x =>
        match acc with
        | none => some x
        | some y => if |y.2| ≤ |x.2| then some x else some y)
      (some p)) = some q
  | [], p => ⟨p, rfl⟩
  | w :: ws, p => by
    rw [List.foldl_cons]
    by_cases hc : |p.2| ≤ |w.2|
    · simpa [hc] using lastArgmaxAbs_of_cons r ws w
    · simpa [hc] using lastArgmaxAbs_of_cons r ws p

lemma lastArgmaxAbs_eq_none (rows : List (ℤ × ℚ)) :
    lastArgmaxAbs rows = none → rows = [] := by
  cases rows with
  | nil => intro; rfl
  | cons r rest =>
    intro h
    obtain ⟨q, hq⟩ := lastArgmaxAbs_of_cons r rest r
    rw [lastArgmaxAbs, List.foldl_cons] at h
    simp only [] at h
    rw [hq] at h
    cases h

lemma lastArgmaxAbs_spec (rows : List (ℤ × ℚ)) :
    ∀ m s, lastArgmaxAbs rows = some (m, s) →
      (m, s) ∈ rows ∧ ∀ q ∈ rows, |q.2| ≤ |s| := by
  induction rows using List.reverseRecOn with
  | nil => intro m s h; cases h
  | append_singleton rs x ih =>
    intro m s h
    have hstep : lastArgmaxAbs (rs ++ [x]) =
        match lastArgmaxAbs rs with
        | none => some x
        | some y => if |y.2| ≤ |x.2| then some x else some y := by
      simp [lastArgmaxAbs, List.foldl_append]
    rw [hstep] at h
    cases hprev : lastArgmaxAbs rs with
    | none =>
      rw [hprev] at h
      simp only [Option.some.injEq] at h
      subst h
      have hnil : rs = [] := lastArgmaxAbs_eq_none rs hprev
      subst hnil
      constructor
      · simp
      · intro q hq
        simp only [List.nil_append, List.mem_singleton] at hq
        subst hq
        exact le_refl _
    | some y =>
      rw [hprev] at h
      simp only [] at h
      by_cases hc : |y.2| ≤ |x.2|
      · rw [if_pos hc] at h
        simp only [Option.some.injEq] at h
        subst h
        obtain ⟨hymem, hybound⟩ := ih y.1 y.2 (by rw [hprev])
        constructor
        · simp
        · intro q hq
          rcases List.mem_append.mp hq with hq | hq
          · exact le_trans (hybound q hq) hc
          · rw [List.mem_singleton] at hq
            subst hq
            exact le_refl _
      · rw [if_neg hc] at h
        simp only [Option.some.injEq] at h
        obtain ⟨hymem, hybound⟩ := ih m s (by rw [hprev, h])
        constructor
        · exact List.mem_append_left _ hymem
        · intro q hq
          rcases List.mem_append.mp hq with hq | hq
          · exact hybound q hq
          · rw [List.mem_singleton] at hq
            subst hq
            have hy2 : y.2 = s := by rw [h]
            rw [← hy2]
            exact (not_le.mp hc).le

lemma lastArgmaxAbs_decomp (rows : List (ℤ × ℚ)) :
    ∀ m s, lastArgmaxAbs rows = some (m, s) →
      ∃ l1 l2, rows = l1 ++ (m, s) :: l2 ∧ ∀ q ∈ l2, |q.2| < |s| := by
  induction rows using List.reverseRecOn with
  | nil => intro m s h; cases h
  | append_singleton rs x ih =>
    intro m s h
    have hstep : lastArgmaxAbs (rs ++ [x]) =
        match lastArgmaxAbs rs with
        | none => some x
        | some y => if |y.2| ≤ |x.2| then some x else some y := by
      simp [lastArgmaxAbs, List.foldl_append]
    rw [hstep] at h
    cases hprev : lastArgmaxAbs rs with
    | none =>
      rw [hprev] at h
      simp only [Option.some.injEq] at h
      subst h
      have hnil : rs = [] := lastArgmaxAbs_eq_none rs hprev
      subst hnil
      exact ⟨[], [], rfl, fun q hq => absurd hq (List.not_mem_nil q)⟩
    | some y =>
      rw [hprev] at h
      simp only [] at h
      by_cases hc : |y.2| ≤ |x.2|
      · rw [if_pos hc] at h
        simp only [Option.some.injEq] at h
        subst h
        exact ⟨rs, [], rfl, fun q hq => absurd hq (List.not_mem_nil q)⟩
      · rw [if_neg hc] at h
        simp only [Option.some.injEq] at h
        obtain ⟨l1, l2, hdec, hstrict⟩ := ih m s (by rw [hprev, h])
        refine ⟨l1, l2 ++ [x], ?_, ?_⟩
        · rw [hdec, List.append_assoc, List.cons_append]
        · intro q hq
          rcases List.mem_append.mp hq with hq | hq
          · exact hstrict q hq
          · rw [List.mem_singleton] at hq
            subst hq
            have hy2 : y.2 = s := by rw [h]
            rw [← hy2]
            exact not_le.mp hc

/-- A two-row slope table with tied absolute slopes: mode 1 (slope 1/2)
encountered first, mode 2 (slope -1/2) second. -/
def tieRows : List (ℤ × ℚ) := [(1, (1 : ℚ)/2), (2, -(1 : ℚ)/2)]

lemma slope_move_tie_eval : slope_move tieRows 10 = some (1, 10) := by
  show slope_move [(1, (1 : ℚ)/2), (2, -(1 : ℚ)/2)] 10 = some (1, 10)
  have h1 : insertAsc (2, -(1 : ℚ)/2) [] = [(2, -(1 : ℚ)/2)] := rfl
  have hc : ¬ (|(1 : ℚ)/2| < |(-(1 : ℚ)/2)|) := by
    rw [not_lt, abs_of_neg (by norm_num : (-(1 : ℚ)/2) < 0),
      abs_of_pos (by norm_num : (0 : ℚ) < 1/2)]
    norm_num
  have h2 : insertAsc (1, (1 : ℚ)/2) [(2, -(1 : ℚ)/2)] =
      [(2, -(1 : ℚ)/2), (1, (1 : ℚ)/2)] := by
    rw [insertAsc, if_neg hc]
    rfl
  have h3 : pandas_sort_desc [(1, (1 : ℚ)/2), (2, -(1 : ℚ)/2)] =
      [(1, (1 : ℚ)/2), (2, -(1 : ℚ)/2)] := by
    rw [pandas_sort_desc,
      show ([(1, (1 : ℚ)/2), (2, -(1 : ℚ)/2)] : List (ℤ × ℚ)).reverse =
        [(2, -(1 : ℚ)/2), (1, (1 : ℚ)/2)] from rfl,
      argsortAsc, List.foldl_cons, List.foldl_cons, List.foldl_nil, h1, h2]
    rfl
  rw [slope_move, find_largest_slopes, h3]
  simp only []
  rw [if_neg (by norm_num : ¬ ((1 : ℚ)/2 = 0)),
    abs_of_pos (by norm_num : (0 : ℚ) < 1/2)]
  norm_num

/-- Claim C2: the slope strategy selects the mode whose fit has the largest
absolute slope, with amplitude `combined_amplitude` signed to match that
slope's sign (positive slope gives positive amplitude, negative slope the
negative amplitude), and ties in absolute slope are broken by encountering
order — the first-encountered mode wins, since pandas' descending sort is
stable in the original row order.  `firstArgmaxAbs rows` is proved to be a
row of `rows` of maximal absolute slope such that every row before it has
strictly smaller absolute slope. -/
theorem slope_selection_first_encountered (rows : List (ℤ × ℚ)) (A : ℚ)
    (h2 : 2 ≤ rows.length) :
    slope_move rows A = (firstArgmaxAbs rows).bind
      (fun p => if p.2 = 0 then none else some (p.1, p.2 / |p.2| * A)) ∧
    (∀ m s, firstArgmaxAbs rows = some (m, s) →
      ((m, s) ∈ rows ∧ ∀ q ∈ rows, |q.2| ≤ |s|) ∧
      ∃ l1 l2, rows = l1 ++ (m, s) :: l2 ∧ ∀ q ∈ l1, |q.2| < |s|) ∧
    (∀ s : ℚ, 0 < s → s / |s| * A = A) ∧
    (∀ s : ℚ, s < 0 → s / |s| * A = -A) := by
  refine ⟨?_, ?_, ?_, ?_⟩
  · have hlen : 2 ≤ (pandas_sort_desc rows).length := by
      rw [pandas_sort_desc, List.length_reverse, argsortAsc_length,
        List.length_reverse]
      exact h2
    have hhead := head_pandas_sort_desc rows
    cases hE : pandas_sort_desc rows with
    | nil => rw [hE] at hlen; simp at hlen
    | cons r1 tl =>
      cases tl with
      | nil => rw [hE] at hlen; simp at hlen
      | cons r2 rest =>
        rw [hE] at hhead
        simp only [List.head?_cons] at hhead
        rw [slope_move, find_largest_slopes, hE, ← hhead]
        rfl
  · intro m s h
    have h' : lastArgmaxAbs rows.reverse = some (m, s) := h
    obtain ⟨hmem, hbound⟩ := lastArgmaxAbs_spec rows.reverse m s h'
    obtain ⟨l1, l2, hdec, hstrict⟩ := lastArgmaxAbs_decomp rows.reverse m s h'
    refine ⟨⟨List.mem_reverse.mp hmem, ?_⟩, l2.reverse, l1.reverse, ?_, ?_⟩
    · intro q hq
      exact hbound q (List.mem_reverse.mpr hq)
    · rw [← List.reverse_reverse rows, hdec]
      simp
    · intro q hq
      exact hstrict q (List.mem_reverse.mp hq)
  · intro s hs
    rw [abs_of_pos hs, div_self hs.ne', one_mul]
  · intro s hs
    rw [abs_of_neg hs, div_neg, div_self hs.ne, neg_one_mul]

/-- Witness for C2 at the tied two-row table `tieRows` with combined
amplitude 10, where the first-encountered mode 1 wins the tie
(`slope_move_tie_eval` evaluates the selected move to `(1, +10)`). -/
theorem slope_selection_first_encountered_witness :
    (2 ≤ tieRows.length) ∧
    (slope_move tieRows 10 = (firstArgmaxAbs tieRows).bind
        (fun p => if p.2 = 0 then none else some (p.1, p.2 / |p.2| * 10)) ∧
      (∀ m s, firstArgmaxAbs tieRows = some (m, s) →
        ((m, s) ∈ tieRows ∧ ∀ q ∈ tieRows, |q.2| ≤ |s|) ∧
        ∃ l1 l2, tieRows = l1 ++ (m, s) :: l2 ∧ ∀ q ∈ l1, |q.2| < |s|) ∧
      (∀ s : ℚ, 0 < s → s / |s| * 10 = 10) ∧
      (∀ s : ℚ, s < 0 → s / |s| * 10 = -10)) := by
  refine ⟨by simp [tieRows],
    slope_selection_first_encountered tieRows 10 (by simp [tieRows])⟩

/-- Claim C10: when the configured mode range contains exactly one mode
(`start_mode = end_mode`), the slope table has a single row, so
`find_largest_slopes` — called unconditionally before any strategy branch —
reads `iloc[1]` out of range and the controller aborts without producing a
move, under every selection strategy. -/
theorem single_mode_range_aborts (start_mode : ℤ) (strat : ModeSelection)
    (pcc : List (ℤ × ℚ × ℚ)) (A : ℚ) (slopeOf : ℤ → ℚ) :
    select_move strat (mkSlopesTable start_mode start_mode slopeOf) pcc A = none := by
  have hmodes : modesList start_mode start_mode = [start_mode] := by
    have hr : List.range 1 = [0] := rfl
    simp [modesList, hr]
  have htable : mkSlopesTable start_mode start_mode slopeOf =
      [(start_mode, slopeOf start_mode)] := by
    rw [mkSlopesTable, hmodes]
    rfl
  rw [htable]
  rfl

/-! ### Termination judgements over the trajectory log
(`module/stop_iter.py`).

The overall log is an Excel sheet whose first row is the header written by
`create_log` (its CC column holds the string "CC of this iter") and whose
later rows are data records (their CC column holds the numeric score).  Only
the CC column (`last_row_values[1]`) is ever read, so a sheet is modelled as
the list of its rows' CC-column cells, top to bottom. -/

/-- A cell of the CC column: numeric in data rows, a string in the header. -/
inductive CellVal
  | num (q : ℚ)
  | str (s : String)

/-- The running total of `read_pre_iter_cc_and_avrg`, reading upward from the
last row: `total_value = total_value + last_value`.  Adding the header's
string cell to the numeric total raises an uncaught `TypeError`, and reading
above row 1 raises in openpyxl: both are `none`. -/
def sumLastCells : List CellVal → ℕ → ℚ → Option ℚ
  | _, 0, acc => some acc
  | [], _ + 1, _ => none
  | c :: rest, n + 1, acc =>
    match c with
    | .num q => sumLastCells rest n (acc + q)
    | .str _ => none

/-- `read_pre_iter_cc_and_avrg(excel_file_path, required_num)`: the sum of
the CC column over the last `required_num` rows of the sheet. -/
def read_pre_iter_cc_and_avrg (sheet : List CellVal) (required : ℕ) : Option ℚ :=
  sumLastCells sheet.reverse required 0

/-- `cc_judgement_avrg`: computes the previous-window average (`try/except`
falls back to 0), the current-window average (`try/except` falls back to the
bare current score), appends the record, and returns whether to continue.
The similarity of the current iteration, computed by the Pearson oracle on
the rendered images, enters as `cc_iter`.  Result: (new sheet, the
rolling-average field written to the record, the continue flag). -/
def cc_judgement_avrg (sheet : List CellVal) (cc_iter : ℚ) :
    List CellVal × ℚ × Bool :=
  let cc_last_5_iter_avrg : ℚ :=
    match read_pre_iter_cc_and_avrg sheet 5 with
    | some s => s / 5
    | none => 0
  let cc_iter_this_iter_avrg : ℚ :=
    match read_pre_iter_cc_and_avrg sheet 4 with
    | some s => (s + cc_iter) / 5
    | none => cc_iter
  (sheet ++ [CellVal.num cc_iter], cc_iter_this_iter_avrg,
    decide (cc_iter_this_iter_avrg > cc_last_5_iter_avrg))

/-- `read_pre_iter_cc`: the CC cell of the last row of the sheet.  The
enclosing `try` in `cc_judgement_single` catches only `FileNotFoundError`,
which cannot occur since `create_log` always creates the log before the loop
starts, so the sheet (with its header) is always present. -/
def read_pre_iter_cc (sheet : List CellVal) : Option CellVal :=
  sheet.getLast?

/-- Python `cc_iter > cc_last_iter`: comparing a number with the header's
string raises an uncaught `TypeError` (`none`). -/
def pyGtNum (q : ℚ) : CellVal → Option Bool
  | .num r => some (decide (r < q))
  | .str _ => none

/-- `cc_judgement_single`: reads the previous CC, appends the record, then
compares.  The record is written before the comparison, so the result is
(new sheet, comparison outcome), `none` marking the uncaught `TypeError`. -/
def cc_judgement_single (sheet : List CellVal) (cc_iter : ℚ) :
    List CellVal × Option Bool :=
  (sheet ++ [CellVal.num cc_iter],
    match read_pre_iter_cc sheet with
    | some c => pyGtNum cc_iter c
    | none => none)

/-- Spec-side rolling average: the mean of the similarity over the most
recent 5 records (current plus up to 4 preceding), or over however many
records exist when fewer have been logged. -/
def specRollingAvg (prev : List ℚ) (cc : ℚ) : ℚ :=
  ((prev.reverse.take (min 4 prev.length)).sum + cc) / (min 4 prev.length + 1)

lemma sumLastCells_eq (h : String) (rest : List CellVal) :
    ∀ (qs : List ℚ) (n : ℕ) (acc : ℚ),
      sumLastCells (qs.map CellVal.num ++ CellVal.str h :: rest) n acc =
        if n ≤ qs.length then some (acc + (qs.take n).sum) else none := by
  intro qs
  induction qs with
  | nil =>
    intro n acc
    cases n with
    | zero => simp [sumLastCells]
    | succ k =>
      have hnone : sumLastCells (CellVal.str h :: rest) (k + 1) acc = none := rfl
      simp [hnone]
  | cons q qs ih =>
    intro n acc
    cases n with
    | zero => simp [sumLastCells]
    | succ k =>
      rw [List.map_cons, List.cons_append]
      show sumLastCells (qs.map CellVal.num ++ CellVal.str h :: rest) k (acc + q) = _
      rw [ih k (acc + q)]
      by_cases hk : k ≤ qs.length
      · rw [if_pos hk, if_pos (by simpa using Nat.succ_le_succ hk)]
        rw [List.take_succ_cons, List.sum_cons]
        ring_nf
      · rw [if_neg hk, if_neg ?_]
        intro hc
        exact hk (by simpa using Nat.le_of_succ_le_succ hc)

lemma read_pre_iter_header (h : String) (recs : List ℚ) (n : ℕ) :
    read_pre_iter_cc_and_avrg (CellVal.str h :: recs.map CellVal.num) n =
      if n ≤ recs.length then some ((recs.reverse.take n).sum) else none := by
  rw [read_pre_iter_cc_and_avrg]
  have hrev : (CellVal.str h :: recs.map CellVal.num).reverse =
      recs.reverse.map CellVal.num ++ CellVal.str h :: [] := by
    simp
  rw [hrev, sumLastCells_eq]
  simp

lemma cc_rolling_eq (h : String) (recs : List ℚ) (cc : ℚ) :
    (cc_judgement_avrg (CellVal.str h :: recs.map CellVal.num) cc).2.1 =
      if 4 ≤ recs.length then ((recs.reverse.take 4).sum + cc) / 5 else cc := by
  by_cases h4 : 4 ≤ recs.length
  · simp only [cc_judgement_avrg, read_pre_iter_header, if_pos h4]
  · simp only [cc_judgement_avrg, read_pre_iter_header, if_neg h4]

/-- Claim C3, amended: the rolling-average field written to an iteration's
record equals the mean of the 5 most recent similarity scores (the current
one plus the 4 preceding) only when at least 4 previous records exist; with
fewer than 4 previous records the 4-row read runs into the header row and
raises, and the fallback writes the bare current score — not the mean over
however many records exist. -/
theorem rolling_average_field (h : String) (recs : List ℚ) (cc : ℚ) :
    (cc_judgement_avrg (CellVal.str h :: recs.map CellVal.num) cc).2.1 =
      if 4 ≤ recs.length then ((recs.reverse.take 4).sum + cc) / 5 else cc :=
  cc_rolling_eq h recs cc

/-- Claim C3, counterexample: with exactly one previous record (similarity 1)
and current similarity 0, `cc_judgement_avrg` writes rolling average 0 (the
4-row read hits the header and the fallback keeps only the current score),
while the mean over the 2 existing records demanded by the claim is 1/2. -/
theorem rolling_average_counterexample :
    (cc_judgement_avrg [CellVal.str "CC of this iter", CellVal.num 1] 0).2.1 = 0 ∧
    specRollingAvg [1] 0 = 1/2 ∧ ((0 : ℚ) ≠ 1/2) := by
  refine ⟨?_, ?_, by norm_num⟩
  · have h := cc_rolling_eq "CC of this iter" [1] 0
    simp only [List.map_cons, List.map_nil] at h
    rw [h]
    norm_num
  · rw [specRollingAvg]
    norm_num

/-- Claim C4: on the very first iteration the log contains only the header
row.  `cc_judgement_avrg` treats the failed reads as baseline 0 (its
rolling field is the bare score and it continues exactly when the score
exceeds 0), as the claim states; but `cc_judgement_single` does NOT: its
`try` catches only `FileNotFoundError`, the always-existing log returns the
header string as the previous CC, and the comparison `cc_iter > str` raises
an uncaught `TypeError` — modelled by the `none` outcome. -/
theorem first_iteration_baseline (h : String) (cc : ℚ) :
    (cc_judgement_avrg [CellVal.str h] cc).2.1 = cc ∧
    (cc_judgement_avrg [CellVal.str h] cc).2.2 = decide (cc > 0) ∧
    (cc_judgement_single [CellVal.str h] cc).2 = none := by
  refine ⟨?_, ?_, rfl⟩
  · have hh := cc_rolling_eq h [] cc
    simpa using hh
  · have h5 : read_pre_iter_cc_and_avrg [CellVal.str h] 5 = none := rfl
    have h4 : read_pre_iter_cc_and_avrg [CellVal.str h] 4 = none := rfl
    simp [cc_judgement_avrg, h5, h4]

/-! ### Image similarity oracle
(`module/slope_of_gradient.py`, `calculation_correlation_pearson_tsv_normalized`):
each image is min-subtracted, divided by its own ORIGINAL maximum, flattened,
and the Pearson correlation of the two flattened vectors is returned.
`scipy.stats.pearsonr` raises `ValueError` when the two vectors differ in
length or have fewer than two entries (`none`); a zero-variance input yields
NaN in scipy after a warning, which in this real-number model appears as the
junk value 0 of division by zero. -/

/-- A sampled image: the row-major matrix loaded by `np.loadtxt`. -/
abbrev Image := List (List ℝ)

/-- The sampled shape of an image: row count and row lengths. -/
def imgShape (img : Image) : ℕ × List ℕ :=
  (img.length, img.map List.length)

/-- Minimum of a list (`mat.min()`; numpy errors on an empty array, so the
empty case carries the junk value 0 and is never used). -/
noncomputable def minD : List ℝ → ℝ
  | [] => 0
  | x :: xs => xs.foldl min x

/-- Maximum of a list (`mat.max()`). -/
noncomputable def maxD : List ℝ → ℝ
  | [] => 0
  | x :: xs => xs.foldl max x

/-- `mat.min()` over the whole matrix. -/
noncomputable def matMin (img : Image) : ℝ := minD img.flatten

/-- `mat.max()` over the whole matrix. -/
noncomputable def matMax (img : Image) : ℝ := maxD img.flatten

/-- `(mat - mat.min()) / mat.max()`: the source's per-image normalization —
it subtracts the minimum but divides by the ORIGINAL maximum. -/
noncomputable def normalizeImg (img : Image) : Image :=
  img.map (fun row => row.map (fun v => (v - matMin img) / matMax img))

/-- Mean of a list of reals. -/
noncomputable def mean (xs : List ℝ) : ℝ := xs.sum / xs.length

/-- Deviations from the mean. -/
noncomputable def devs (xs : List ℝ) : List ℝ := xs.map (fun v => v - mean xs)

/-- `Σ (x - x̄)(y - ȳ)` over paired entries. -/
noncomputable def covSum (xs ys : List ℝ) : ℝ :=
  (((devs xs).zip (devs ys)).map (fun p => p.1 * p.2)).sum

/-- `Σ (x - x̄)²`. -/
noncomputable def varSum (xs : List ℝ) : ℝ :=
  ((devs xs).map (fun v => v ^ 2)).sum

/-- `scipy.stats.pearsonr(x, y)[0]`. -/
noncomputable def pearsonr (xs ys : List ℝ) : Option ℝ :=
  if xs.length = ys.length ∧ 2 ≤ xs.length then
    some (covSum xs ys / (Real.sqrt (varSum xs) * Real.sqrt (varSum ys)))
  else none

/-- `calculation_correlation_pearson_tsv_normalized(target, initial)`. -/
noncomputable def calculation_correlation_pearson_tsv_normalized
    (target initial : Image) : Option ℝ :=
  pearsonr ((normalizeImg target).flatten) ((normalizeImg initial).flatten)

/-- A positive affine rescale `α·I + β` of an image (entrywise). -/
def affineImg (a b : ℝ) (img : Image) : Image :=
  img.map (fun row => row.map (fun v => a * v + b))

lemma flatten_normalize (img : Image) :
    (normalizeImg img).flatten =
      img.flatten.map (fun v => (v - matMin img) / matMax img) := by
  rw [normalizeImg]
  exact (List.map_flatten ..).symm

lemma flatten_affine (a b : ℝ) (img : Image) :
    (affineImg a b img).flatten = img.flatten.map (fun v => a * v + b) := by
  rw [affineImg]
  exact (List.map_flatten ..).symm

lemma isSome_similarity_iff (target initial : Image) :
    (calculation_correlation_pearson_tsv_normalized target initial).isSome ↔
      (target.flatten.length = initial.flatten.length ∧
        2 ≤ target.flatten.length) := by
  have h1 : ((normalizeImg target).flatten).length = target.flatten.length := by
    rw [flatten_normalize, List.length_map]
  have h2 : ((normalizeImg initial).flatten).length = initial.flatten.length := by
    rw [flatten_normalize, List.length_map]
  rw [calculation_correlation_pearson_tsv_normalized, pearsonr, h1, h2]
  by_cases h : target.flatten.length = initial.flatten.length ∧
      2 ≤ target.flatten.length
  · rw [if_pos h]
    simpa using h
  · rw [if_neg h]
    simpa using h

/-- Claim C5, counterexample: a 1×2 image and a 2×1 image have different
sampled shapes but equal flattened length, and the similarity computation
returns a score for them instead of failing. -/
theorem shape_mismatch_counterexample :
    imgShape ([[0, 1]] : Image) ≠ imgShape ([[0], [2]] : Image) ∧
    (calculation_correlation_pearson_tsv_normalized [[0, 1]] [[0], [2]]).isSome := by
  constructor
  · intro h
    have h1 : (1 : ℕ) = 2 := congrArg Prod.fst h
    cases h1
  · rw [isSome_similarity_iff]
    exact ⟨rfl, le_refl 2⟩

/-- Claim C5, amended: the similarity computation fails exactly when the two
images' flattened pixel counts differ or fewer than two pixels are present
(the length check of `pearsonr`); images of different sampled shape but equal
pixel count are not detected and receive a score. -/
theorem similarity_fails_iff_flat_length (target initial : Image) :
    (calculation_correlation_pearson_tsv_normalized target initial).isSome ↔
      (target.flatten.length = initial.flatten.length ∧
        2 ≤ target.flatten.length) :=
  isSome_similarity_iff target initial

/-! ### Affine behaviour of the similarity oracle (claim C9).

The oracle normalizes each image by `(mat - mat.min()) / mat.max()` with the
ORIGINAL maximum in the denominator.  For `I' = α·I + β` with `α > 0` the two
normalized vectors are proportional with factor `α·max(I) / (α·max(I) + β)`,
so the score is 1 exactly when that factor is positive — a shift β that
makes the second image's maximum negative flips the score to -1. -/

lemma mean_map_mul (c : ℝ) (xs : List ℝ) :
    mean (xs.map (fun v => v * c)) = mean xs * c := by
  rw [mean, mean, List.length_map]
  rw [show (xs.map (fun v => v * c)).sum = xs.sum * c by
    simpa using List.sum_map_mul_right xs id c]
  rw [mul_div_right_comm]

lemma devs_map_mul (c : ℝ) (xs : List ℝ) :
    devs (xs.map (fun v => v * c)) = (devs xs).map (fun v => v * c) := by
  rw [devs, devs, mean_map_mul, List.map_map, List.map_map]
  congr 1
  funext v
  simp only [Function.comp_apply]
  ring

lemma zip_self_map_sum (f : ℝ → ℝ) : ∀ (l : List ℝ),
    ((l.zip (l.map f)).map (fun p => p.1 * p.2)).sum =
      (l.map (fun a => a * f a)).sum
  | [] => rfl
  | x :: xs => by
    rw [List.map_cons, List.zip_cons_cons, List.map_cons, List.sum_cons,
      zip_self_map_sum f xs, List.map_cons, List.sum_cons]

lemma covSum_self_mul (c : ℝ) (u : List ℝ) :
    covSum u (u.map (fun v => v * c)) = varSum u * c := by
  rw [covSum, devs_map_mul, zip_self_map_sum, varSum]
  rw [show (devs u).map (fun a => a * (a * c)) = (devs u).map (fun a => a ^ 2 * c) by
    congr 1
    funext a
    ring]
  simpa using List.sum_map_mul_right (devs u) (fun a => a ^ 2) c

lemma varSum_map_mul (c : ℝ) (u : List ℝ) :
    varSum (u.map (fun v => v * c)) = varSum u * c ^ 2 := by
  rw [varSum, devs_map_mul, List.map_map, varSum]
  rw [show ((fun v => v ^ 2) ∘ fun v => v * c) = fun v => v ^ 2 * c ^ 2 by
    funext v
    simp only [Function.comp_apply]
    ring]
  simpa using List.sum_map_mul_right (devs u) (fun a => a ^ 2) (c ^ 2)

lemma varSum_nonneg (u : List ℝ) : 0 ≤ varSum u := by
  apply List.sum_nonneg
  intro x hx
  obtain ⟨v, _, rfl⟩ := List.mem_map.mp hx
  positivity

lemma varSum_pos_of_mem (u : List ℝ) (a : ℝ) (ha : a ∈ u)
    (hk : a - mean u ≠ 0) : 0 < varSum u := by
  have hmem : (a - mean u) ^ 2 ∈ (devs u).map (fun v => v ^ 2) :=
    List.mem_map_of_mem _ (List.mem_map_of_mem _ ha)
  have hpos : 0 < (a - mean u) ^ 2 := by positivity
  refine lt_of_lt_of_le hpos (List.single_le_sum ?_ _ hmem)
  intro x hx
  obtain ⟨v, _, rfl⟩ := List.mem_map.mp hx
  positivity

lemma varSum_pos (u : List ℝ) (hnc : ∃ a ∈ u, ∃ b ∈ u, a ≠ b) :
    0 < varSum u := by
  obtain ⟨a, ha, b, hb, hab⟩ := hnc
  by_cases hk : a - mean u ≠ 0
  · exact varSum_pos_of_mem u a ha hk
  · push_neg at hk
    have hb2 : b - mean u ≠ 0 := by
      intro h
      apply hab
      linarith
    exact varSum_pos_of_mem u b hb hb2

lemma two_le_length_of_two_mem {l : List ℝ} {a b : ℝ}
    (ha : a ∈ l) (hb : b ∈ l) (hab : a ≠ b) : 2 ≤ l.length := by
  cases l with
  | nil => cases ha
  | cons x xs =>
    cases xs with
    | nil =>
      rw [List.mem_singleton] at ha hb
      exact absurd (ha.trans hb.symm) hab
    | cons y ys =>
      simp only [List.length_cons]
      omega

lemma pearsonr_self_mul (u : List ℝ) (c : ℝ) (hc : 0 < c)
    (hvar : 0 < varSum u) (hlen : 2 ≤ u.length) :
    pearsonr u (u.map (fun v => v * c)) = some 1 := by
  rw [pearsonr, if_pos ⟨(List.length_map ..).symm, hlen⟩]
  congr 1
  rw [covSum_self_mul, varSum_map_mul,
    Real.sqrt_mul (varSum_nonneg u), Real.sqrt_sq hc.le]
  rw [show Real.sqrt (varSum u) * (Real.sqrt (varSum u) * c) = varSum u * c by
    rw [← mul_assoc, Real.mul_self_sqrt (varSum_nonneg u)]]
  exact div_self (mul_pos hvar hc).ne'

lemma foldl_min_map (f : ℝ → ℝ) (hf : ∀ a b : ℝ, f (min a b) = min (f a) (f b)) :
    ∀ (l : List ℝ) (x : ℝ), (l.map f).foldl min (f x) = f (l.foldl min x)
  | [], _ => rfl
  | y :: ys, x => by
    rw [List.map_cons, List.foldl_cons, List.foldl_cons, ← hf,
      foldl_min_map f hf ys]

lemma foldl_max_map (f : ℝ → ℝ) (hf : ∀ a b : ℝ, f (max a b) = max (f a) (f b)) :
    ∀ (l : List ℝ) (x : ℝ), (l.map f).foldl max (f x) = f (l.foldl max x)
  | [], _ => rfl
  | y :: ys, x => by
    rw [List.map_cons, List.foldl_cons, List.foldl_cons, ← hf,
      foldl_max_map f hf ys]

lemma minD_map (f : ℝ → ℝ) (hf : ∀ a b : ℝ, f (min a b) = min (f a) (f b)) :
    ∀ (l : List ℝ), l ≠ [] → minD (l.map f) = f (minD l)
  | [], h => absurd rfl h
  | x :: xs, _ => by
    rw [List.map_cons, minD, minD, foldl_min_map f hf]

lemma maxD_map (f : ℝ → ℝ) (hf : ∀ a b : ℝ, f (max a b) = max (f a) (f b)) :
    ∀ (l : List ℝ), l ≠ [] → maxD (l.map f) = f (maxD l)
  | [], h => absurd rfl h
  | x :: xs, _ => by
    rw [List.map_cons, maxD, maxD, foldl_max_map f hf]

lemma affine_map_min (a b : ℝ) (ha : 0 ≤ a) (x y : ℝ) :
    a * min x y + b = min (a * x + b) (a * y + b) :=
  ((monotone_mul_left_of_nonneg ha).add_const b).map_min

lemma affine_map_max (a b : ℝ) (ha : 0 ≤ a) (x y : ℝ) :
    a * max x y + b = max (a * x + b) (a * y + b) :=
  ((monotone_mul_left_of_nonneg ha).add_const b).map_max

lemma matMin_affine (a b : ℝ) (ha : 0 ≤ a) (img : Image)
    (hne : img.flatten ≠ []) :
    matMin (affineImg a b img) = a * matMin img + b := by
  rw [matMin, matMin, flatten_affine]
  exact minD_map _ (affine_map_min a b ha) _ hne

lemma matMax_affine (a b : ℝ) (ha : 0 ≤ a) (img : Image)
    (hne : img.flatten ≠ []) :
    matMax (affineImg a b img) = a * matMax img + b := by
  rw [matMax, matMax, flatten_affine]
  exact maxD_map _ (affine_map_max a b ha) _ hne

lemma normalize_affine (img : Image) (a b : ℝ) (ha : 0 < a)
    (hM : matMax img ≠ 0) (hM2 : a * matMax img + b ≠ 0)
    (hne : img.flatten ≠ []) :
    (normalizeImg (affineImg a b img)).flatten =
      ((normalizeImg img).flatten).map
        (fun v => v * (a * matMax img / (a * matMax img + b))) := by
  rw [flatten_normalize, flatten_normalize, flatten_affine,
    matMin_affine a b ha.le img hne, matMax_affine a b ha.le img hne,
    List.map_map, List.map_map]
  congr 1
  funext v
  simp only [Function.comp_apply]
  field_simp
  ring

/-- Claim C9, amended: the similarity of an image `I` with a positive affine
rescale `α·I + β` of itself is 1 provided `I` is non-constant, `max(I) > 0`
and `α·max(I) + β > 0` (the normalization divides by each image's raw
maximum, so both maxima must be positive for the proportionality factor
between the normalized vectors to be positive). -/
theorem similarity_affine_invariant (img : Image) (a b : ℝ)
    (ha : 0 < a) (hM : 0 < matMax img) (hM2 : 0 < a * matMax img + b)
    (hnc : ∃ x ∈ img.flatten, ∃ y ∈ img.flatten, x ≠ y) :
    calculation_correlation_pearson_tsv_normalized img (affineImg a b img) =
      some 1 := by
  have hne : img.flatten ≠ [] := by
    intro h
    rw [h] at hnc
    simp at hnc
  have hv : (normalizeImg (affineImg a b img)).flatten =
      ((normalizeImg img).flatten).map
        (fun v => v * (a * matMax img / (a * matMax img + b))) :=
    normalize_affine img a b ha hM.ne' hM2.ne' hne
  rw [calculation_correlation_pearson_tsv_normalized, hv]
  have hc : 0 < a * matMax img / (a * matMax img + b) :=
    div_pos (mul_pos ha hM) hM2
  obtain ⟨x, hx, y, hy, hxy⟩ := hnc
  have hx2 : (x - matMin img) / matMax img ∈ (normalizeImg img).flatten := by
    rw [flatten_normalize]
    exact List.mem_map_of_mem _ hx
  have hy2 : (y - matMin img) / matMax img ∈ (normalizeImg img).flatten := by
    rw [flatten_normalize]
    exact List.mem_map_of_mem _ hy
  have hxy2 : (x - matMin img) / matMax img ≠ (y - matMin img) / matMax img := by
    intro h
    apply hxy
    field_simp at h
    exact h
  exact pearsonr_self_mul _ _ hc
    (varSum_pos _ ⟨_, hx2, _, hy2, hxy2⟩)
    (two_le_length_of_two_mem hx2 hy2 hxy2)

/-- Witness for the amended C9: the identity rescale (α = 1, β = 0) of the
non-constant image `[[1, 2]]` scores exactly 1. -/
theorem similarity_affine_invariant_witness :
    ((0 : ℝ) < 1 ∧ (0 : ℝ) < matMax [[1, 2]] ∧
      (0 : ℝ) < 1 * matMax [[1, 2]] + 0 ∧
      (∃ x ∈ ([[1, 2]] : Image).flatten, ∃ y ∈ ([[1, 2]] : Image).flatten, x ≠ y)) ∧
    calculation_correlation_pearson_tsv_normalized [[1, 2]]
      (affineImg 1 0 [[1, 2]]) = some 1 := by
  have hmax : matMax ([[1, 2]] : Image) = max 1 2 := rfl
  have hmax2 : (0 : ℝ) < matMax [[1, 2]] := by
    rw [hmax, max_eq_right (by norm_num : (1 : ℝ) ≤ 2)]
    norm_num
  have hnc : ∃ x ∈ ([[1, 2]] : Image).flatten, ∃ y ∈ ([[1, 2]] : Image).flatten,
      x ≠ y := by
    refine ⟨1, ?_, 2, ?_, by norm_num⟩
    · show (1 : ℝ) ∈ ([[1, 2]] : Image).flatten
      simp
    · show (2 : ℝ) ∈ ([[1, 2]] : Image).flatten
      simp
  refine ⟨⟨by norm_num, hmax2, by linarith, hnc⟩, ?_⟩
  exact similarity_affine_invariant [[1, 2]] 1 0 (by norm_num) hmax2
    (by linarith) hnc

/-- Claim C9, counterexample: `[[-9, -8]]` is the positive affine rescale
`1·I + (-10)` of `I = [[1, 2]]`, yet the similarity is -1, not 1: the shifted
image's maximum is -8 < 0, so its normalization flips sign. -/
theorem similarity_affine_counterexample :
    affineImg 1 (-10) [[1, 2]] = [[-9, -8]] ∧ (0 : ℝ) < 1 ∧
    calculation_correlation_pearson_tsv_normalized [[1, 2]] [[-9, -8]] =
      some (-1) ∧
    some (-1 : ℝ) ≠ some (1 : ℝ) := by
  refine ⟨by norm_num [affineImg], by norm_num, ?_, ?_⟩
  case refine_2 =>
    simp only [ne_eq, Option.some.injEq]
    norm_num
  have hmin1 : matMin ([[1, 2]] : Image) = min 1 2 := rfl
  have hmax1 : matMax ([[1, 2]] : Image) = max 1 2 := rfl
  have hmin2 : matMin ([[-9, -8]] : Image) = min (-9) (-8) := rfl
  have hmax2 : matMax ([[-9, -8]] : Image) = max (-9) (-8) := rfl
  have hu : (normalizeImg ([[1, 2]] : Image)).flatten = [0, 1/2] := by
    have h0 : (normalizeImg ([[1, 2]] : Image)).flatten =
        [((1 : ℝ) - matMin [[1, 2]]) / matMax [[1, 2]],
          ((2 : ℝ) - matMin [[1, 2]]) / matMax [[1, 2]]] := rfl
    rw [h0, hmin1, hmax1, min_eq_left (by norm_num : (1 : ℝ) ≤ 2),
      max_eq_right (by norm_num : (1 : ℝ) ≤ 2)]
    norm_num
  have hw : (normalizeImg ([[-9, -8]] : Image)).flatten = [0, -(1/8)] := by
    have h0 : (normalizeImg ([[-9, -8]] : Image)).flatten =
        [((-9 : ℝ) - matMin [[-9, -8]]) / matMax [[-9, -8]],
          ((-8 : ℝ) - matMin [[-9, -8]]) / matMax [[-9, -8]]] := rfl
    rw [h0, hmin2, hmax2, min_eq_left (by norm_num : (-9 : ℝ) ≤ -8),
      max_eq_right (by norm_num : (-9 : ℝ) ≤ -8)]
    norm_num
  rw [calculation_correlation_pearson_tsv_normalized, hu, hw, pearsonr,
    if_pos ⟨rfl, le_refl 2⟩]
  have hmu : mean [(0 : ℝ), 1/2] = 1/4 := by
    rw [mean]
    simp
    norm_num
  have hmw : mean [(0 : ℝ), -(1/8)] = -(1/16) := by
    rw [mean]
    simp
    norm_num
  have hdu : devs [(0 : ℝ), 1/2] = [-(1/4), 1/4] := by
    rw [devs, hmu]
    norm_num
  have hdw : devs [(0 : ℝ), -(1/8)] = [1/16, -(1/16)] := by
    rw [devs, hmw]
    norm_num
  have hcov : covSum [(0 : ℝ), 1/2] [(0 : ℝ), -(1/8)] = -(1/32) := by
    rw [covSum, hdu, hdw]
    norm_num [List.zip_cons_cons]
  have hvu : varSum [(0 : ℝ), 1/2] = 1/8 := by
    rw [varSum, hdu]
    norm_num
  have hvw : varSum [(0 : ℝ), -(1/8)] = 1/128 := by
    rw [varSum, hdw]
    norm_num
  rw [hcov, hvu, hvw]
  have hsq : Real.sqrt (1/8) * Real.sqrt (1/128) = 1/32 := by
    rw [← Real.sqrt_mul (by norm_num : (0 : ℝ) ≤ 1/8)]
    rw [show (1/8 : ℝ) * (1/128) = (1/32) ^ 2 by norm_num]
    exact Real.sqrt_sq (by norm_num)
  rw [hsq]
  norm_num

/-! ### Post-run trajectory analysis
(`module/scoring_and_export.py`, `save_time_series_plot` /
`save_time_series_plot_no_reference` and `scoring_conformations`, called at
the end of `nmff_afm.py`).

After fitting `cc change = a·exp(b·(step − 1))` the analyzer walks the decay
fractions `p_list = [0.05, 0.03, 0.01]`; for each it computes
`u = int(np.ceil(np.log(p)/b_fit + 1))`, clamps `u` to the last logged step
`m` with a printed warning when `u > m`, and stores `u` into `num_of_step`
when `p == 0.03`; `num_of_step` is returned as the run's best step.  The
`curve_fit` call is NOT wrapped in any `try`: its outcome enters the model
as an `Option` and a fit failure (`none`) propagates. -/

/-- The clamped decay step for one fraction `p`:
`u = int(np.ceil(np.log(p)/b_fit + 1))`, clamped to the last step `m`. -/
noncomputable def step_at_decay (b : ℝ) (m : ℤ) (p : ℝ) : ℤ :=
  if ⌈Real.log p / b + 1⌉ > m then m else ⌈Real.log p / b + 1⌉

/-- The configured decay fractions `p_list = [0.05, 0.03, 0.01]`. -/
noncomputable def p_list : List ℝ := [0.05, 0.03, 0.01]

/-- The `for p in p_list` loop's final `num_of_step`: set when `p == 0.03`. -/
noncomputable def best_decay_step (b : ℝ) (m : ℤ) : Option ℤ :=
  p_list.foldl
    (fun acc p => if p = 0.03 then some (step_at_decay b m p) else acc) none

/-- `save_time_series_plot`: `curve_fit` either returns the parameters
`(a_fit, b_fit)` or raises; the raise is uncaught, so a `none` fit outcome
makes the whole call `none`.  Otherwise the decay loop runs and the final
`num_of_step` is returned. -/
noncomputable def save_time_series_plot (fit : Option (ℝ × ℝ)) (m : ℤ) :
    Option ℤ :=
  match fit with
  | none => none
  | some ab => best_decay_step ab.2 m

/-- `scoring_conformations`: calls `save_time_series_plot` with no `try`
around it (the plotting and log writing are I/O); the returned turning point
is the run's final answer, printed by `nmff_afm.py` only when the call
returns. -/
noncomputable def scoring_conformations (fit : Option (ℝ × ℝ)) (m : ℤ) :
    Option ℤ :=
  save_time_series_plot fit m

lemma best_decay_step_eq (b : ℝ) (m : ℤ) :
    best_decay_step b m = some (step_at_decay b m 0.03) := by
  rw [best_decay_step, p_list, List.foldl_cons, List.foldl_cons,
    List.foldl_cons, List.foldl_nil]
  rw [if_neg (by norm_num : ¬ ((0.05 : ℝ) = 0.03)), if_pos rfl,
    if_neg (by norm_num : ¬ ((0.01 : ℝ) = 0.03))]

lemma log_high_over_3_bounds :
    3 < Real.log (100 / 3) ∧ Real.log (100 / 3) < 4 := by
  have h3 : Real.exp 3 < 100 / 3 := by
    have hp : Real.exp 1 ^ 3 < 2.7182818286 ^ 3 :=
      pow_lt_pow_left₀ Real.exp_one_lt_d9 (Real.exp_pos 1).le (by norm_num)
    rw [Real.exp_one_pow] at hp
    calc Real.exp 3 < 2.7182818286 ^ 3 := by exact_mod_cast hp
      _ < 100 / 3 := by norm_num
  have h4 : (100 / 3 : ℝ) < Real.exp 4 := by
    have hp : (2.7182818283 : ℝ) ^ 4 < Real.exp 1 ^ 4 :=
      pow_lt_pow_left₀ Real.exp_one_gt_d9 (by norm_num) (by norm_num)
    rw [Real.exp_one_pow] at hp
    calc (100 / 3 : ℝ) < 2.7182818283 ^ 4 := by norm_num
      _ < Real.exp 4 := hp
  constructor
  · exact (Real.lt_log_iff_exp_lt (by norm_num)).mpr h3
  · exact (Real.log_lt_iff_lt_exp (by norm_num)).mpr h4

lemma ceil_decay_at_b_neg_one : (⌈Real.log 0.03 / (-1) + 1⌉ : ℤ) = 5 := by
  obtain ⟨hlo, hhi⟩ := log_high_over_3_bounds
  have hlog : Real.log 0.03 = -Real.log (100 / 3) := by
    rw [show (0.03 : ℝ) = (100 / 3)⁻¹ by norm_num, Real.log_inv]
  rw [Int.ceil_eq_iff]
  rw [hlog]
  constructor
  · push_cast
    nlinarith
  · push_cast
    nlinarith

/-- Claim C7: for each decay fraction the analyzer computes
`ceil(ln(p)/b + 1)` clamped to the last logged step, the reported best step
is the (possibly clamped) step of the middle fraction 0.03, and with fit
parameters `a = 1, b = -1` and at least 5 logged steps the reported best
step is 5. -/
theorem decay_best_step_report (b : ℝ) (m : ℤ) (h5 : 5 ≤ m) :
    best_decay_step b m =
      some (if ⌈Real.log 0.03 / b + 1⌉ > m then m else ⌈Real.log 0.03 / b + 1⌉) ∧
    best_decay_step (-1) m = some 5 := by
  constructor
  · rw [best_decay_step_eq, step_at_decay]
  · rw [best_decay_step_eq, step_at_decay, ceil_decay_at_b_neg_one,
      if_neg (by omega)]

/-- Witness for C7 with 10 logged steps. -/
theorem decay_best_step_report_witness :
    ((5 : ℤ) ≤ 10) ∧
    (best_decay_step (-1) 10 =
        some (if ⌈Real.log 0.03 / (-1) + 1⌉ > 10 then 10
          else ⌈Real.log 0.03 / (-1) + 1⌉) ∧
      best_decay_step (-1) 10 = some 5) :=
  ⟨by norm_num, decay_best_step_report (-1) 10 (by norm_num)⟩

/-- Claim C8, counterexample: when the exponential fit fails to converge
(the `curve_fit` outcome is `none`), the run does NOT complete with a
warning — `scoring_conformations` propagates the failure (`none`) and the
pipeline aborts before reporting any best step. -/
theorem fit_divergence_aborts : scoring_conformations none 5 = none := rfl

/-- Claim C8, amended: the fit error propagates uncaught through
`save_time_series_plot` and `scoring_conformations`: the post-run analysis
(and with it the run's final report) completes exactly when the fit
converges; a diverging fit aborts the pipeline rather than being downgraded
to a warning. -/
theorem scoring_completes_iff_fit (fit : Option (ℝ × ℝ)) (m : ℤ) :
    (scoring_conformations fit m).isSome = fit.isSome := by
  cases fit with
  | none => rfl
  | some ab =>
    rw [scoring_conformations, save_time_series_plot, best_decay_step_eq]
    rfl

end Nmff
